import Mathlib

/-!
CleanSweep (`pc-cleaner/app.py`) — a verification development.

Shallow embedding of the core of the CleanSweep backend: the path catalog
(`get_clean_targets`), recursive size accounting (`get_dir_size`), forced
removal (`force_remove`, built on `shutil.rmtree` with an error-swallowing
`onerror` callback), per-directory cleaning (`clean_directory_contents`),
the scan report (`scan`) and the streaming clean pass (`clean.generate`).

The filesystem is modelled as a tree of nodes.  A node is a regular file
(with its size, its read-only attribute and a flag saying whether
`chmod`+`unlink` succeeds on it), a directory (with a flag saying whether it
can be opened/listed, and its children in listing order), or an entry that
is neither a regular file nor a directory — FIFOs, sockets and dangling
symbolic links; for those, `statOk` records whether `stat` (which follows
links) succeeds, which is also what `Path.exists()` reports.  Live symbolic
links are outside the model (no claim mentions them); note that
`os.scandir`-based size accounting uses `follow_symlinks=False`, so in
`get_dir_size` every symlink behaves like an `other` node (contributes 0).

Candidate paths of the catalog are modelled as `Option Node` — `none` when
the path does not exist at all.  Distinct candidate paths are taken to be
disjoint, so a clean pass acts on each path's tree independently and
returns the updated tree.
-/

namespace CleanSweep

/-- One filesystem entry.  `file size ro removable`: a regular file of
`size` bytes, read-only attribute `ro`, and `removable` true iff deleting
it (after the `chmod(S_IWRITE)` the code always performs first) succeeds.
`dir listable children`: a directory that can be opened iff `listable`.
`other statOk`: an entry that is neither a regular file nor a directory
(FIFO, socket, dangling symlink); `stat`/`Path.exists()` succeeds iff
`statOk`.  Unlinking an `other` entry inside `rmtree` is modelled as
succeeding (its parent was openable). -/
inductive Node where
  | file (size : Nat) (ro : Bool) (removable : Bool)
  | dir (listable : Bool) (children : List Node)
  | other (statOk : Bool)

/-- Model of `Path.exists()` on a node: follows links, so it is `statOk` for
`other` nodes and true for files and directories. -/
def nodeExists : Node → Bool
  | .file _ _ _ => true
  | .dir _ _ => true
  | .other so => so

mutual

/-- Size contributed by one `os.scandir` entry in `get_dir_size`:
`entry.is_file(follow_symlinks=False)` adds the stat size,
`entry.is_dir(follow_symlinks=False)` recurses (where an unopenable
directory yields 0, its error swallowed), anything else adds nothing. -/
def entrySize : Node → Nat
  | .file sz _ _ => sz
  | .other _ => 0
  | .dir l cs => if l then sizeEntries cs else 0

/-- Sum of `entrySize` over a listing, in listing order. -/
def sizeEntries : List Node → Nat
  | [] => 0
  | c :: rest => entrySize c + sizeEntries rest

end

/-- The function `get_dir_size(path)` from `app.py`: `os.scandir(path)` inside a
`try` that swallows `PermissionError`/`OSError` — so a path that is a
regular file (`NotADirectoryError`), an unopenable directory, or any
other non-directory returns 0; an openable directory returns the sum of
its entries' contributions. -/
def get_dir_size : Node → Nat
  | .file _ _ _ => 0
  | .other _ => 0
  | .dir l cs => if l then sizeEntries cs else 0

mutual

/-- Effect of `shutil.rmtree`'s per-entry work on one entry, with the
error-swallowing `onerror` of `force_remove`.  Result `[]` means the
entry is gone, `[n]` that `n` remains.  A non-removable file survives
(its unlink fails even after the `onerror` chmod retry); an unopenable
directory is left untouched (`os.open` fails, `onerror` swallows, rmtree
returns); an openable directory has its entries processed recursively and
is itself removed exactly when nothing remains inside. -/
def removeEntry : Node → List Node
  | .file sz ro rem => if rem then [] else [.file sz ro rem]
  | .other _ => []
  | .dir l cs =>
    if l then
      match removeEntries cs with
      | [] => []
      | c :: rest => [.dir l (c :: rest)]
    else [.dir l cs]

/-- Pass of `rmtree` over a listing, in listing order; one entry's failure
does not stop the others. -/
def removeEntries : List Node → List Node
  | [] => []
  | c :: rest => removeEntry c ++ removeEntries rest

end

/-- Model of `shutil.rmtree(path, onerror=onerror)` as called by `force_remove` on
a directory: returns the remaining tree (`none` if fully removed).  Since
`onerror` swallows every `OSError`, this never raises. -/
def rmtreeDir (l : Bool) (cs : List Node) : Option Node :=
  if l then
    match removeEntries cs with
    | [] => none
    | c :: rest => some (.dir l (c :: rest))
  else some (.dir l cs)

/-- The function `force_remove(path)` from `app.py`, on a path that may not exist.
Files: `chmod(S_IWRITE)` then `os.remove`; success iff `removable`.
Directories: `shutil.rmtree` with the swallowing `onerror`, which never
raises — so the call always reports `true`, even when nothing could be
deleted.  A nonexistent path, dangling symlink (chmod raises) or other
special entry falls through to `return False`.  The function is total:
it never raises. -/
def force_remove : Option Node → Bool × Option Node
  | none => (false, none)
  | some (.file sz ro rem) =>
    if rem then (true, none) else (false, some (.file sz ro rem))
  | some (.dir l cs) => (true, rmtreeDir l cs)
  | some (.other so) => (false, some (.other so))

/-- Counters returned by `clean_directory_contents`, in the source's
order `freed, errors, items_removed`. -/
structure CleanStats where
  freed : Nat
  errors : Nat
  items : Nat
deriving DecidableEq, Repr

def addStats (a b : CleanStats) : CleanStats :=
  ⟨a.freed + b.freed, a.errors + b.errors, a.items + b.items⟩

/-- One iteration of the `for item in d.iterdir()` loop of
`clean_directory_contents`: compute the item's size (`get_dir_size` for a
directory, `stat().st_size` otherwise — which raises on a dangling
symlink, counted as one error), then `force_remove` it; a directory
removal always reports success (see `force_remove`), so only files can
add to the error counter here.  Returns the counters and what remains of
the item. -/
def cleanItem : Node → CleanStats × List Node
  | .file sz ro rem =>
    if rem then (⟨sz, 0, 1⟩, []) else (⟨0, 1, 0⟩, [.file sz ro rem])
  | .dir l cs => (⟨get_dir_size (.dir l cs), 0, 1⟩, (rmtreeDir l cs).toList)
  | .other so =>
    if so then (⟨0, 0, 0⟩, [.other so]) else (⟨0, 1, 0⟩, [.other so])

/-- The loop body folded over the listing snapshot, accumulating
counters and collecting the remaining entries in order. -/
def cleanItems : List Node → CleanStats × List Node
  | [] => (⟨0, 0, 0⟩, [])
  | c :: rest =>
    let (s, r) := cleanItem c
    let (s', r') := cleanItems rest
    (addStats s s', r ++ r')

/-- The function `clean_directory_contents(directory)` from `app.py`: returns
`(0,0,0)` when the path does not exist; iterating a path that exists but
is not an openable directory raises, swallowed by the outer handler as
one error; otherwise each top-level entry is processed by `cleanItem`.
Only the entries inside are touched — the node itself always survives. -/
def clean_directory_contents : Node → CleanStats × Node
  | .dir l cs =>
    if l then
      let (s, cs') := cleanItems cs
      (s, .dir l cs')
    else (⟨0, 1, 0⟩, .dir l cs)
  | .file sz ro rem => (⟨0, 1, 0⟩, .file sz ro rem)
  | .other so =>
    if so then (⟨0, 1, 0⟩, .other so) else (⟨0, 0, 0⟩, .other so)

/-- A catalog maps category names to lists of candidate paths (in the
insertion order of the source's `dict`); each candidate path is modelled
directly by its content, `none` when the path does not exist. -/
abbrev Catalog := List (String × List (Option Node))

/-- One candidate path inside `clean.generate`'s inner loop:
`if pp.exists(): clean_directory_contents(str(pp))`.  A nonexistent path
contributes nothing and is unchanged. -/
def cleanPath : Option Node → CleanStats × Option Node
  | none => (⟨0, 0, 0⟩, none)
  | some n =>
    if nodeExists n then
      let (s, n') := clean_directory_contents n
      (s, some n')
    else (⟨0, 0, 0⟩, some n)

/-- The inner loop of `clean.generate` over one category's candidate
paths, accumulating `freed`, `errors`, `items` and returning the updated
paths. -/
def cleanCategory : List (Option Node) → CleanStats × List (Option Node)
  | [] => (⟨0, 0, 0⟩, [])
  | p :: rest =>
    let (s, p') := cleanPath p
    let (s', rest') := cleanCategory rest
    (addStats s s', p' :: rest')

/-- A per-category (or maintenance) event of the SSE stream: the JSON
object `{category, freed, items, errors}` yielded by `clean.generate`. -/
structure CleanEvent where
  category : String
  freed : Nat
  items : Nat
  errors : Nat
deriving DecidableEq, Repr

/-- The terminal `{done: true, total_freed, errors}` object. -/
structure DoneEvent where
  total_freed : Nat
  errors : Nat
deriving DecidableEq, Repr

/-- One yielded SSE event. -/
inductive Event where
  | clean (e : CleanEvent)
  | done (d : DoneEvent)
deriving DecidableEq, Repr

/-- The per-category phase of `clean.generate`: for each category, in
catalog iteration order, process its candidate paths, add the category's
`freed` and `errors` into the running totals (`total_freed += freed;
total_errors += errors`), and yield the category's event — always, even
when no candidate path exists.  Returns the events, the updated catalog
and the final totals, given the totals accumulated so far. -/
def generateCats : Catalog → Nat → Nat → List Event × Catalog × Nat × Nat
  | [], tf, te => ([], [], tf, te)
  | (name, ps) :: rest, tf, te =>
    let (s, ps') := cleanCategory ps
    let (evs, rest', tf', te') := generateCats rest (tf + s.freed) (te + s.errors)
    (Event.clean ⟨name, s.freed, s.items, s.errors⟩ :: evs,
      (name, ps') :: rest', tf', te')

/-- The post-pass OS-maintenance phase of `clean.generate` (DNS-cache
flush, recycle-bin empty, disk-buffer sync): a list of attempted actions
with a flag saying whether the action ran without raising.  Each action
that ran yields a literal `{category, freed: 0, items: 1, errors: 0}`
event; a failing action yields nothing and the running totals are never
touched. -/
def maintEvents : List (String × Bool) → List Event
  | [] => []
  | (name, ok) :: rest =>
    (if ok then [Event.clean ⟨name, 0, 1, 0⟩] else []) ++ maintEvents rest

/-- The whole `clean.generate` stream: per-category events in catalog
order, then maintenance events, then exactly one terminal done event
carrying the totals accumulated over the per-category phase.  Also
returns the catalog's state after the pass. -/
def generate (cat : Catalog) (maint : List (String × Bool)) :
    List Event × Catalog :=
  let (evs, cat', tf, te) := generateCats cat 0 0
  (evs ++ maintEvents maint ++ [Event.done ⟨tf, te⟩], cat')

/-- The per-category record built by `scan` (the `paths` and
`size_human` fields carry no further information for the properties
below). -/
structure ScanResult where
  category : String
  size : Nat
deriving DecidableEq, Repr

/-- The inner loop of `scan` over one category's candidate paths:
`exists |= pp.exists()`, and each existing path adds `get_dir_size`. -/
def scanCategory : List (Option Node) → Bool × Nat
  | [] => (false, 0)
  | p :: rest =>
    let (ex, sz) := scanCategory rest
    match p with
    | none => (ex, sz)
    | some n => if nodeExists n then (true, get_dir_size n + sz) else (ex, sz)

/-- The unsorted result list of `scan`: one record per category having at
least one existing candidate path, in catalog iteration order. -/
def scanResults : Catalog → List ScanResult
  | [] => []
  | (name, ps) :: rest =>
    let (ex, sz) := scanCategory ps
    if ex then ⟨name, sz⟩ :: scanResults rest else scanResults rest

/-- The descending comparison `scan` sorts by: `a` may come before `b`
iff `b.size ≤ a.size`. -/
def sizeGe (a b : ScanResult) : Prop := b.size ≤ a.size

instance : DecidableRel sizeGe :=
  fun a b => inferInstanceAs (Decidable (b.size ≤ a.size))

/-- Model of `results.sort(key=lambda x: x["size"], reverse=True)`: Python's sort
is stable, so this is the stable descending sort by size — insertion
sort with `a` before `b` whenever `b.size ≤ a.size` (ties keep their
original relative order). -/
def sortDesc (l : List ScanResult) : List ScanResult :=
  l.insertionSort sizeGe

/-- The value serialized by `scan`: grand total (accumulated over the
included categories, before sorting) and the sorted category records. -/
structure TotalReport where
  total : Nat
  categories : List ScanResult
deriving DecidableEq, Repr

/-- The `scan` endpoint of `app.py` (its pure content): build the
per-category records over existing paths, accumulate the grand total,
sort descending by size. -/
def scan (cat : Catalog) : TotalReport :=
  let rs := scanResults cat
  ⟨rs.foldl (fun a r => a + r.size) 0, sortDesc rs⟩

/-- The `platform.system()` values the catalog dispatches on: `"Windows"`,
`"Darwin"` (macOS) and the `else` branch (Linux). -/
inductive Platform where
  | windows
  | darwin
  | linux
deriving DecidableEq, Repr

/-- The ambient state `get_clean_targets` reads: the home directory, the
Windows environment variables (with their defaults already resolved, as
the code does with `os.environ.get`), and the results of the two
`glob("*/cache2")` expansions for Firefox profiles — an empty list when
the profiles root does not exist. -/
structure Env where
  home : String
  windir : String
  localappdata : String
  appdata : String
  temp : String
  firefoxProfilesWin : List String
  firefoxProfilesLinux : List String
deriving DecidableEq, Repr

/-- The function `get_clean_targets()` from `app.py`: the per-platform insertion-ordered
mapping from category name to candidate paths, transcribed entry by entry
(paths as joined strings).  Glob-based categories keep their key even when
the expansion is empty. -/
def get_clean_targets (os : Platform) (env : Env) : List (String × List String) :=
  match os with
  | .windows =>
    [("User Temp Files", [env.temp]),
     ("Windows Temp", [env.windir ++ "/Temp"]),
     ("Prefetch", [env.windir ++ "/Prefetch"]),
     ("Recent Files", [env.appdata ++ "/Microsoft/Windows/Recent"]),
     ("Thumbnail Cache", [env.localappdata ++ "/Microsoft/Windows/Explorer"]),
     ("Windows Error Reports",
       [env.localappdata ++ "/Microsoft/Windows/WER",
        "C:/ProgramData/Microsoft/Windows/WER"]),
     ("Windows Update Cache", ["C:/Windows/SoftwareDistribution/Download"]),
     ("DirectX Shader Cache", [env.localappdata ++ "/D3DSCache"]),
     ("Chrome Cache",
       [env.localappdata ++ "/Google/Chrome/User Data/Default/Cache",
        env.localappdata ++ "/Google/Chrome/User Data/Default/Code Cache",
        env.localappdata ++ "/Google/Chrome/User Data/Default/GPUCache"]),
     ("Edge Cache",
       [env.localappdata ++ "/Microsoft/Edge/User Data/Default/Cache",
        env.localappdata ++ "/Microsoft/Edge/User Data/Default/Code Cache"]),
     ("Firefox Cache", env.firefoxProfilesWin),
     ("Teams Cache", [env.localappdata ++ "/Microsoft/Teams/Cache"]),
     ("Discord Cache",
       [env.appdata ++ "/discord/Cache", env.appdata ++ "/discord/Code Cache"]),
     ("Spotify Cache", [env.localappdata ++ "/Spotify/Data"]),
     ("Log Files", [env.windir ++ "/Logs"]),
     ("Crash Dumps", [env.localappdata ++ "/CrashDumps"]),
     ("Font Cache", [env.localappdata ++ "/FontCache"])]
  | .darwin =>
    [("User Cache", [env.home ++ "/Library/Caches"]),
     ("System Log Files", ["/var/log"]),
     ("User Log Files", [env.home ++ "/Library/Logs"]),
     ("Temporary Files", ["/tmp", "/var/tmp"]),
     ("Chrome Cache", [env.home ++ "/Library/Caches/Google/Chrome"]),
     ("Firefox Cache", [env.home ++ "/Library/Caches/Firefox"]),
     ("Safari Cache", [env.home ++ "/Library/Caches/com.apple.Safari"]),
     ("Trash", [env.home ++ "/.Trash"]),
     ("iOS Device Backups",
       [env.home ++ "/Library/Application Support/MobileSync/Backup"]),
     ("Xcode Cache", [env.home ++ "/Library/Developer/Xcode/DerivedData"]),
     ("pip Cache", [env.home ++ "/Library/Caches/pip"])]
  | .linux =>
    [("User Cache", [env.home ++ "/.cache"]),
     ("Temporary Files", ["/tmp", "/var/tmp"]),
     ("System Logs", ["/var/log"]),
     ("User Logs", [env.home ++ "/.local/share/recently-used.xbel"]),
     ("Thumbnail Cache", [env.home ++ "/.cache/thumbnails"]),
     ("Chrome Cache",
       [env.home ++ "/.cache/google-chrome",
        env.home ++ "/.config/google-chrome/Default/Cache"]),
     ("Firefox Cache", env.firefoxProfilesLinux),
     ("pip Cache", [env.home ++ "/.cache/pip"]),
     ("apt Cache", ["/var/cache/apt/archives"]),
     ("npm Cache", [env.home ++ "/.npm/_cacache"]),
     ("Trash", [env.home ++ "/.local/share/Trash"]),
     ("Coredumps", ["/var/crash", env.home ++ "/.local/share/apport/coredump"])]

mutual

/-- Spec-side mirror, for the refinement comparison with `entrySize`:
the sizes of the regular files reachable from one entry without
following symbolic links, listing order preserved, omitting everything
below a directory whose listing fails. -/
def entryReachableSizes : Node → List Nat
  | .file sz _ _ => [sz]
  | .other _ => []
  | .dir l cs => if l then reachableSizesList cs else []

/-- Spec-side mirror: concatenation of `entryReachableSizes` over a
listing. -/
def reachableSizesList : List Node → List Nat
  | [] => []
  | c :: rest => entryReachableSizes c ++ reachableSizesList rest

end

/-- Spec-side mirror of `get_dir_size` following the spec's words: the
regular files reachable from the path without following symbolic links,
where a path that is not an openable directory contributes nothing. -/
def reachableFileSizes : Node → List Nat
  | .file _ _ _ => []
  | .other _ => []
  | .dir l cs => if l then reachableSizesList cs else []

theorem sizeEntries_eq_sum_reachable :
    ∀ cs, sizeEntries cs = (reachableSizesList cs).sum := by
  intro cs
  refine sizeEntries.induct
    (fun n => entrySize n = (entryReachableSizes n).sum)
    (fun cs => sizeEntries cs = (reachableSizesList cs).sum)
    ?_ ?_ ?_ ?_ ?_ ?_ cs
  · intro sz ro rem; simp [entrySize, entryReachableSizes]
  · intro so; simp [entrySize, entryReachableSizes]
  · intro cs ih; simpa [entrySize, entryReachableSizes] using ih
  · intro l cs hl
    simp only [entrySize, entryReachableSizes, if_neg hl]
    simp
  · simp [sizeEntries, reachableSizesList]
  · intro c rest ih1 ih2
    simp [sizeEntries, reachableSizesList, ih1, ih2]

theorem sizeEntries_append (a b : List Node) :
    sizeEntries (a ++ b) = sizeEntries a + sizeEntries b := by
  induction a with
  | nil => simp [sizeEntries]
  | cons c rest ih => simp [sizeEntries, ih]; omega

/-- C3: `get_dir_size` returns, for every path, the (non-negative, being
a `Nat`) sum of the sizes of the regular files reachable without
following symbolic links, omitting only what cannot be listed; a
directory holding files of 100, 200 and 300 bytes yields exactly 600,
and an unreadable subdirectory anywhere in the listing contributes
nothing — the result is the readable portion's sum, with no error
propagated (the function is total). -/
theorem get_dir_size_correct :
    (∀ n, get_dir_size n = (reachableFileSizes n).sum) ∧
    (∀ ro rem, get_dir_size (Node.dir true
      [Node.file 100 ro rem, Node.file 200 ro rem, Node.file 300 ro rem]) = 600) ∧
    (∀ pre hidden post,
      get_dir_size (Node.dir true (pre ++ Node.dir false hidden :: post)) =
        get_dir_size (Node.dir true (pre ++ post))) := by
  refine ⟨?_, ?_, ?_⟩
  · intro n
    cases n with
    | file sz ro rem => simp [get_dir_size, reachableFileSizes]
    | other so => simp [get_dir_size, reachableFileSizes]
    | dir l cs =>
      cases l with
      | false => simp [get_dir_size, reachableFileSizes]
      | true => simpa [get_dir_size, reachableFileSizes] using
          sizeEntries_eq_sum_reachable cs
  · intro ro rem
    simp [get_dir_size, sizeEntries, entrySize]
  · intro pre hidden post
    simp [get_dir_size, sizeEntries_append, sizeEntries, entrySize]

/-- C9: a candidate path that exists but is a regular file (such as the
Linux `User Logs` entry `recently-used.xbel`): `scan`'s walk of it fails
with a swallowed error, adding 0 bytes while still marking the category
as existing, and a clean pass over that path yields freed = 0, items = 0
and errors = 1 (the `iterdir` failure is absorbed as a single error),
leaving the file in place. -/
theorem file_candidate_path_behavior :
    ∀ sz ro rem,
      get_dir_size (Node.file sz ro rem) = 0 ∧
      scanCategory [some (Node.file sz ro rem)] = (true, 0) ∧
      cleanPath (some (Node.file sz ro rem)) =
        (⟨0, 1, 0⟩, some (Node.file sz ro rem)) := by
  intro sz ro rem
  exact ⟨rfl, rfl, rfl⟩

/-- C5: `force_remove` is a total function into `Bool` (it never
raises); on a nonexistent path it returns `false` and changes nothing;
on a read-only regular file whose deletion succeeds it returns `true`
with the file gone — and the reported outcome never depends on the
read-only attribute, since `chmod(S_IWRITE)` is performed before every
removal attempt. -/
theorem force_remove_contract :
    force_remove none = (false, none) ∧
    (∀ sz, force_remove (some (Node.file sz true true)) = (true, none)) ∧
    (∀ sz ro rem, (force_remove (some (Node.file sz ro rem))).1 =
      (force_remove (some (Node.file sz true rem))).1) := by
  refine ⟨rfl, fun sz => rfl, fun sz ro rem => ?_⟩
  cases rem <;> rfl

/-- C8: on every supported platform and in every environment, the path
catalog is a non-empty mapping whose category names are pairwise
distinct. -/
theorem get_clean_targets_nonempty_unique :
    ∀ os env, get_clean_targets os env ≠ [] ∧
      ((get_clean_targets os env).map Prod.fst).Nodup := by
  intro os env
  cases os <;>
    refine ⟨by simp [get_clean_targets], ?_⟩ <;>
    simp only [get_clean_targets, List.map] <;> decide

section ScanLemmas

theorem sortDesc_sorted (l : List ScanResult) :
    (sortDesc l).Pairwise sizeGe := by
  haveI : IsTotal ScanResult sizeGe := ⟨fun a b => le_total b.size a.size⟩
  haveI : IsTrans ScanResult sizeGe :=
    ⟨fun a b c h1 h2 => le_trans h2 h1⟩
  exact List.sorted_insertionSort sizeGe l

theorem sortDesc_perm (l : List ScanResult) : List.Perm (sortDesc l) l :=
  List.perm_insertionSort _ l

theorem filter_orderedInsert (k : Nat) (a : ScanResult) (l : List ScanResult) :
    (List.orderedInsert sizeGe a l).filter (fun x => x.size == k) =
      if a.size == k then a :: l.filter (fun x => x.size == k)
      else l.filter (fun x => x.size == k) := by
  induction l with
  | nil =>
    cases h : (a.size == k) <;> simp [List.orderedInsert, h]
  | cons b rest ih =>
    by_cases hab : sizeGe a b
    · cases h : (a.size == k) <;>
        simp [List.orderedInsert, if_pos hab, List.filter_cons, h]
    · have hlt : a.size < b.size := by
        simp only [sizeGe, not_le] at hab
        exact hab
      cases h : (a.size == k) with
      | true =>
        have hk : a.size = k := beq_iff_eq.mp h
        have hbk : (b.size == k) = false := by
          apply beq_eq_false_iff_ne.mpr
          omega
        simp [List.orderedInsert, if_neg hab, List.filter_cons, h, hbk, ih]
      | false =>
        simp [List.orderedInsert, if_neg hab, List.filter_cons, h, ih]

theorem sortDesc_stable (k : Nat) (l : List ScanResult) :
    (sortDesc l).filter (fun x => x.size == k) =
      l.filter (fun x => x.size == k) := by
  induction l with
  | nil => rfl
  | cons a rest ih =>
    show (List.orderedInsert sizeGe a (sortDesc rest)).filter _ = _
    rw [filter_orderedInsert]
    cases h : (a.size == k) <;> simp [h, ih, List.filter_cons]

theorem foldl_add_size (l : List ScanResult) (init : Nat) :
    l.foldl (fun a r => a + r.size) init = init + (l.map ScanResult.size).sum := by
  induction l generalizing init with
  | nil => simp
  | cons a rest ih => simp [ih]; omega

theorem scanResults_mem_name (cat : Catalog) (name : String) :
    (∃ res ∈ scanResults cat, res.category = name) ↔
      ∃ ps, (name, ps) ∈ cat ∧ (scanCategory ps).1 = true := by
  induction cat with
  | nil => simp [scanResults]
  | cons hd rest ih =>
    obtain ⟨n, ps⟩ := hd
    rcases h : scanCategory ps with ⟨ex, sz⟩
    cases ex
    · have hres : scanResults ((n, ps) :: rest) = scanResults rest := by
        simp [scanResults, h]
      rw [hres, ih]
      constructor
      · rintro ⟨ps', hm, hex⟩
        exact ⟨ps', List.mem_cons_of_mem _ hm, hex⟩
      · rintro ⟨ps', hm, hex⟩
        rcases List.mem_cons.mp hm with heq | hm'
        · exfalso
          have h2 : ps' = ps := congrArg Prod.snd heq
          rw [h2, h] at hex
          simp at hex
        · exact ⟨ps', hm', hex⟩
    · have hres : scanResults ((n, ps) :: rest) = ⟨n, sz⟩ :: scanResults rest := by
        simp [scanResults, h]
      rw [hres]
      constructor
      · rintro ⟨res, hm, hname⟩
        rcases List.mem_cons.mp hm with heq | hm'
        · refine ⟨ps, ?_, by rw [h]⟩
          have h1 : res.category = n := by rw [heq]
          rw [← hname, h1]
          exact List.mem_cons_self _ _
        · obtain ⟨ps', hm'', hex⟩ := ih.mp ⟨res, hm', hname⟩
          exact ⟨ps', List.mem_cons_of_mem _ hm'', hex⟩
      · rintro ⟨ps', hm, hex⟩
        rcases List.mem_cons.mp hm with heq | hm'
        · have h0 : name = n := congrArg Prod.fst heq
          exact ⟨⟨n, sz⟩, List.mem_cons_self _ _, h0.symm⟩
        · obtain ⟨res, hm'', hres2⟩ := ih.mpr ⟨ps', hm', hex⟩
          exact ⟨res, List.mem_cons_of_mem _ hm'', hres2⟩

end ScanLemmas

/-- C4: the scan report lists a category iff at least one of its
candidate paths exists; its records are in non-increasing size order;
records of equal size keep catalog iteration order (`scanResults` is the
catalog-ordered pre-sort list); and the grand total is the sum of the
included categories' sizes. -/
theorem scan_report_invariants (cat : Catalog) :
    (scan cat).categories.Pairwise (fun a b => b.size ≤ a.size) ∧
    (∀ name, (∃ res ∈ (scan cat).categories, res.category = name) ↔
      ∃ ps, (name, ps) ∈ cat ∧ (scanCategory ps).1 = true) ∧
    (∀ k, (scan cat).categories.filter (fun x => x.size == k) =
      (scanResults cat).filter (fun x => x.size == k)) ∧
    (scan cat).total = ((scan cat).categories.map ScanResult.size).sum := by
  refine ⟨sortDesc_sorted _, ?_, ?_, ?_⟩
  · intro name
    rw [← scanResults_mem_name]
    constructor
    · rintro ⟨res, hm, hres⟩
      exact ⟨res, (sortDesc_perm _).mem_iff.mp hm, hres⟩
    · rintro ⟨res, hm, hres⟩
      exact ⟨res, (sortDesc_perm _).mem_iff.mpr hm, hres⟩
  · intro k
    exact sortDesc_stable k _
  · show (scanResults cat).foldl _ 0 = _
    rw [foldl_add_size]
    simp only [Nat.zero_add]
    exact (((sortDesc_perm (scanResults cat)).map ScanResult.size).sum_eq).symm

/-- The category name an event reports (`none` for the done event). -/
def evCategory : Event → Option String
  | .clean e => some e.category
  | .done _ => none

/-- Whether an event is the terminal done event. -/
def evIsDone : Event → Bool
  | .clean _ => false
  | .done _ => true

/-- The freed-bytes field of an event (`total_freed` for the done
event). -/
def evFreed : Event → Nat
  | .clean e => e.freed
  | .done d => d.total_freed

/-- The error-count field of an event. -/
def evErrors : Event → Nat
  | .clean e => e.errors
  | .done d => d.errors

/-- The items field of a per-category event (0 for the done event,
which has none). -/
def evItems : Event → Nat
  | .clean e => e.items
  | .done _ => 0

section GenerateLemmas

theorem generateCats_events_categories (cat : Catalog) :
    ∀ tf te, ((generateCats cat tf te).1).map evCategory =
      cat.map (fun c => some c.1) := by
  induction cat with
  | nil => intro tf te; rfl
  | cons hd rest ih =>
    intro tf te
    obtain ⟨name, ps⟩ := hd
    simp only [generateCats, List.map, evCategory]
    rw [ih]

theorem generateCats_length (cat : Catalog) (tf te : Nat) :
    ((generateCats cat tf te).1).length = cat.length := by
  have h := generateCats_events_categories cat tf te
  have h1 := congrArg List.length h
  simpa using h1

theorem generateCats_no_done (cat : Catalog) :
    ∀ tf te, ∀ e ∈ (generateCats cat tf te).1, evIsDone e = false := by
  induction cat with
  | nil => intro tf te e he; simp [generateCats] at he
  | cons hd rest ih =>
    intro tf te e he
    obtain ⟨name, ps⟩ := hd
    simp only [generateCats, List.mem_cons] at he
    rcases he with rfl | he
    · rfl
    · exact ih _ _ e he

theorem maintEvents_fields (maint : List (String × Bool)) :
    ∀ e ∈ maintEvents maint,
      evIsDone e = false ∧ evFreed e = 0 ∧ evItems e = 1 ∧ evErrors e = 0 := by
  induction maint with
  | nil => intro e he; simp [maintEvents] at he
  | cons hd rest ih =>
    intro e he
    obtain ⟨name, ok⟩ := hd
    cases ok with
    | false =>
      simp only [maintEvents, Bool.false_eq_true, if_false, List.nil_append] at he
      exact ih e he
    | true =>
      simp only [maintEvents, if_true, List.cons_append, List.nil_append,
        List.mem_cons] at he
      rcases he with rfl | he
      · exact ⟨rfl, rfl, rfl, rfl⟩
      · exact ih e he

theorem generateCats_totals (cat : Catalog) :
    ∀ tf te,
      (generateCats cat tf te).2.2.1 =
        tf + (((generateCats cat tf te).1).map evFreed).sum ∧
      (generateCats cat tf te).2.2.2 =
        te + (((generateCats cat tf te).1).map evErrors).sum := by
  induction cat with
  | nil => intro tf te; simp [generateCats]
  | cons hd rest ih =>
    intro tf te
    obtain ⟨name, ps⟩ := hd
    obtain ⟨ih1, ih2⟩ :=
      ih (tf + (cleanCategory ps).1.freed) (te + (cleanCategory ps).1.errors)
    simp only [generateCats, List.map, evFreed, evErrors, List.sum_cons]
    constructor
    · rw [ih1]; omega
    · rw [ih2]; omega

theorem generateCats_catalog (cat : Catalog) :
    ∀ tf te, (generateCats cat tf te).2.1 =
      cat.map (fun c => (c.1, (cleanCategory c.2).2)) := by
  induction cat with
  | nil => intro tf te; rfl
  | cons hd rest ih =>
    intro tf te
    obtain ⟨name, ps⟩ := hd
    simp only [generateCats, List.map]
    rw [ih]

theorem generateCats_event_mem (cat : Catalog) :
    ∀ tf te, ∀ c ∈ cat,
      Event.clean ⟨c.1, (cleanCategory c.2).1.freed, (cleanCategory c.2).1.items,
        (cleanCategory c.2).1.errors⟩ ∈ (generateCats cat tf te).1 := by
  induction cat with
  | nil => intro tf te c hc; simp at hc
  | cons hd rest ih =>
    intro tf te c hc
    obtain ⟨name, ps⟩ := hd
    rcases List.mem_cons.mp hc with rfl | hc
    · simp [generateCats]
    · simp only [generateCats, List.mem_cons]
      exact Or.inr (ih _ _ c hc)

theorem generateCats_event_shape (cat : Catalog) :
    ∀ tf te, ∀ e ∈ (generateCats cat tf te).1,
      ∃ c ∈ cat, e = Event.clean ⟨c.1, (cleanCategory c.2).1.freed,
        (cleanCategory c.2).1.items, (cleanCategory c.2).1.errors⟩ := by
  induction cat with
  | nil => intro tf te e he; simp [generateCats] at he
  | cons hd rest ih =>
    intro tf te e he
    obtain ⟨name, ps⟩ := hd
    simp only [generateCats, List.mem_cons] at he
    rcases he with rfl | he
    · exact ⟨(name, ps), List.mem_cons_self _ _, rfl⟩
    · obtain ⟨c, hc, hec⟩ := ih _ _ e he
      exact ⟨c, List.mem_cons_of_mem _ hc, hec⟩

end GenerateLemmas

/-- C2: every clean pass emits one per-category event for every catalog
category, in catalog iteration order (the first `cat.length` events are
`CleanEvent`s whose categories are exactly the catalog keys in order),
regardless of whether any candidate path exists; and exactly one done
event, which comes last — whatever the outcome of each category. -/
theorem clean_stream_shape (cat : Catalog) (maint : List (String × Bool)) :
    (((generate cat maint).1.take cat.length).map evCategory =
      cat.map (fun c => some c.1)) ∧
    ((generate cat maint).1.countP evIsDone = 1) ∧
    (∃ d, (generate cat maint).1.getLast? = some (Event.done d)) := by
  rcases hg : generateCats cat 0 0 with ⟨evs, cat', tf, te⟩
  have hevs : (generateCats cat 0 0).1 = evs := by rw [hg]
  have hlen : evs.length = cat.length := by
    rw [← hevs]; exact generateCats_length cat 0 0
  have hshape : (generate cat maint).1 =
      evs ++ maintEvents maint ++ [Event.done ⟨tf, te⟩] := by
    simp only [generate, hg]
  refine ⟨?_, ?_, ?_⟩
  · rw [hshape, ← hlen, List.append_assoc, List.take_left]
    rw [← hevs]
    exact generateCats_events_categories cat 0 0
  · rw [hshape]
    rw [List.countP_append, List.countP_append]
    have h1 : evs.countP evIsDone = 0 := by
      apply List.countP_eq_zero.mpr
      intro e he
      have := generateCats_no_done cat 0 0 e (by rw [hg]; exact he)
      simp [this]
    have h2 : (maintEvents maint).countP evIsDone = 0 := by
      apply List.countP_eq_zero.mpr
      intro e he
      have := (maintEvents_fields maint e he).1
      simp [this]
    rw [h1, h2]
    rfl
  · refine ⟨⟨tf, te⟩, ?_⟩
    rw [hshape, List.append_assoc, List.getLast?_append, List.getLast?_concat]
    rfl

/-- C10: in every clean pass, each post-pass maintenance event (the
segment strictly between the per-category events and the done event)
carries freed = 0, items = 1 and errors = 0; and the done event's
cumulative totals equal the sums of the per-category events' freed and
error fields — the maintenance phase leaves them unchanged. -/
theorem maintenance_frame (cat : Catalog) (maint : List (String × Bool)) :
    (∀ e ∈ ((generate cat maint).1.drop cat.length).dropLast,
      evFreed e = 0 ∧ evItems e = 1 ∧ evErrors e = 0) ∧
    (∃ d, (generate cat maint).1.getLast? = some (Event.done d) ∧
      d.total_freed = (((generate cat maint).1.take cat.length).map evFreed).sum ∧
      d.errors = (((generate cat maint).1.take cat.length).map evErrors).sum) := by
  rcases hg : generateCats cat 0 0 with ⟨evs, cat', tf, te⟩
  have hevs : (generateCats cat 0 0).1 = evs := by rw [hg]
  have hlen : evs.length = cat.length := by
    rw [← hevs]; exact generateCats_length cat 0 0
  have hshape : (generate cat maint).1 =
      evs ++ maintEvents maint ++ [Event.done ⟨tf, te⟩] := by
    simp only [generate, hg]
  have htake : (generate cat maint).1.take cat.length = evs := by
    rw [hshape, ← hlen, List.append_assoc, List.take_left]
  have htot := generateCats_totals cat 0 0
  rw [hg] at htot
  simp only [Nat.zero_add] at htot
  refine ⟨?_, ?_⟩
  · intro e he
    rw [hshape, ← hlen, List.append_assoc, List.drop_left] at he
    have hdl : (maintEvents maint ++ [Event.done ⟨tf, te⟩]).dropLast =
        maintEvents maint := by
      rw [List.dropLast_concat]
    rw [hdl] at he
    exact (maintEvents_fields maint e he).2
  · refine ⟨⟨tf, te⟩, ?_, ?_, ?_⟩
    · rw [hshape, List.append_assoc, List.getLast?_append, List.getLast?_concat]
      rfl
    · rw [htake]
      exact htot.1
    · rw [htake]
      exact htot.2

/-- C1 counterexample: in the spec's end-to-end scenario — a catalog
`{"Temp": ["/tmp/x"]}` where `/tmp/x` holds three files of 500 bytes each
and one subdirectory that cannot be opened — the stream is NOT
`CleanEvent{Temp, freed: 1500, items: 3, errors: 1}` followed by
`DoneEvent{total_freed: 1500, errors: 1}`: `shutil.rmtree` with the
swallowing `onerror` makes `force_remove` report success on the locked
subdirectory, so it is counted as removed, not as an error. -/
theorem clean_scenario_counterexample :
    (generate [("Temp", [some (Node.dir true
      [Node.file 500 false true, Node.file 500 false true,
       Node.file 500 false true, Node.dir false []])])] []).1 ≠
      [Event.clean ⟨"Temp", 1500, 3, 1⟩, Event.done ⟨1500, 1⟩] := by
  decide

/-- C1 amended: in that scenario the pass emits exactly one CleanEvent
with category `"Temp"`, freed = 1500, items = 4 and errors = 0 — the
three files plus the locked subdirectory, whose failed removal is
reported as success and adds 0 bytes — followed by the DoneEvent with
total_freed = 1500 and errors = 0. -/
theorem clean_scenario_events :
    (generate [("Temp", [some (Node.dir true
      [Node.file 500 false true, Node.file 500 false true,
       Node.file 500 false true, Node.dir false []])])] []).1 =
      [Event.clean ⟨"Temp", 1500, 4, 0⟩, Event.done ⟨1500, 0⟩] := by
  decide

section FrameLemmas

theorem clean_directory_contents_dir (l : Bool) (cs : List Node) :
    (clean_directory_contents (Node.dir l cs)).2 =
      Node.dir l (if l then (cleanItems cs).2 else cs) := by
  cases l with
  | false => rfl
  | true =>
    rcases h : cleanItems cs with ⟨s, cs'⟩
    simp [clean_directory_contents, h]

theorem nodeExists_clean_directory_contents (n : Node) :
    nodeExists ((clean_directory_contents n).2) = nodeExists n := by
  cases n with
  | file sz ro rem => rfl
  | dir l cs => rw [clean_directory_contents_dir]; rfl
  | other so => cases so <;> rfl

theorem cleanPath_isSome (p : Option Node) :
    ((cleanPath p).2).isSome = p.isSome := by
  cases p with
  | none => rfl
  | some n =>
    cases hex : nodeExists n with
    | false => simp [cleanPath, hex]
    | true =>
      rcases h : clean_directory_contents n with ⟨s, n'⟩
      simp [cleanPath, hex, h]

end FrameLemmas

/-- C6: a clean pass only ever removes top-level entries inside an
existing candidate directory: the directory node itself survives with
the same listability, its new children being exactly what the per-entry
forced removals left behind (and untouched if it cannot be listed);
consequently its existence is preserved, at the node and at the
candidate-path level. -/
theorem clean_preserves_candidate_directory :
    (∀ l cs, (clean_directory_contents (Node.dir l cs)).2 =
      Node.dir l (if l then (cleanItems cs).2 else cs)) ∧
    (∀ n, nodeExists ((clean_directory_contents n).2) = nodeExists n) ∧
    (∀ p, ((cleanPath p).2).isSome = p.isSome) :=
  ⟨clean_directory_contents_dir, nodeExists_clean_directory_contents,
    cleanPath_isSome⟩

section IdempotenceLemmas

/-- A node shape that contributes no error to `cleanItem`: directories
(whose forced removal always reports success) and existing special
entries (which are silently skipped).  These are exactly the shapes an
error-free pass can leave behind at top level. -/
def benign : Node → Bool
  | .file _ _ _ => false
  | .dir _ _ => true
  | .other so => so

theorem benign_cleanItem_errors (n : Node) (h : benign n = true) :
    (cleanItem n).1.errors = 0 := by
  cases n with
  | file sz ro rem => simp [benign] at h
  | dir l cs => rfl
  | other so =>
    cases so with
    | false => simp [benign] at h
    | true => rfl

theorem rmtreeDir_shape (l : Bool) (cs : List Node) :
    ∀ m ∈ (rmtreeDir l cs).toList, ∃ l2 cs2, m = Node.dir l2 cs2 := by
  intro m hm
  cases l with
  | false =>
    simp only [rmtreeDir, Bool.false_eq_true, if_false, Option.toList_some,
      List.mem_singleton] at hm
    exact ⟨false, cs, hm⟩
  | true =>
    rcases h : removeEntries cs with _ | ⟨c, rest⟩ <;>
      simp only [rmtreeDir, if_true, h, Option.toList_none, Option.toList_some,
        List.not_mem_nil, List.mem_singleton] at hm
    exact ⟨true, c :: rest, hm⟩

theorem cleanItem_residue_benign (n : Node)
    (h : (cleanItem n).1.errors = 0) :
    ∀ m ∈ (cleanItem n).2, benign m = true := by
  intro m hm
  cases n with
  | file sz ro rem =>
    cases rem with
    | false => simp [cleanItem] at h
    | true => simp [cleanItem] at hm
  | dir l cs =>
    simp only [cleanItem] at hm
    obtain ⟨l2, cs2, rfl⟩ := rmtreeDir_shape l cs m hm
    rfl
  | other so =>
    cases so with
    | false => simp [cleanItem] at h
    | true =>
      simp only [cleanItem, if_true, List.mem_singleton] at hm
      rw [hm]
      rfl

theorem cleanItems_residue_benign (cs : List Node)
    (h : (cleanItems cs).1.errors = 0) :
    ∀ m ∈ (cleanItems cs).2, benign m = true := by
  induction cs with
  | nil => intro m hm; simp [cleanItems] at hm
  | cons c rest ih =>
    rcases h1 : cleanItem c with ⟨s, r⟩
    rcases h2 : cleanItems rest with ⟨s', r'⟩
    simp only [cleanItems, h1, h2, addStats] at h ⊢
    have hz : s.errors = 0 ∧ s'.errors = 0 := by
      constructor <;> omega
    intro m hm
    rcases List.mem_append.mp hm with hmr | hmr'
    · have := cleanItem_residue_benign c (by rw [h1]; exact hz.1)
      rw [h1] at this
      exact this m hmr
    · have := ih (by rw [h2]; exact hz.2)
      rw [h2] at this
      exact this m hmr'

theorem cleanItems_benign_errors (cs : List Node)
    (h : ∀ m ∈ cs, benign m = true) :
    (cleanItems cs).1.errors = 0 := by
  induction cs with
  | nil => rfl
  | cons c rest ih =>
    rcases h1 : cleanItem c with ⟨s, r⟩
    rcases h2 : cleanItems rest with ⟨s', r'⟩
    simp only [cleanItems, h1, h2, addStats]
    have hc : s.errors = 0 := by
      have := benign_cleanItem_errors c (h c (List.mem_cons_self _ _))
      rw [h1] at this
      exact this
    have hr : s'.errors = 0 := by
      have := ih (fun m hm => h m (List.mem_cons_of_mem _ hm))
      rw [h2] at this
      exact this
    omega

theorem clean_directory_contents_errors_idem (n : Node)
    (h : (clean_directory_contents n).1.errors = 0) :
    (clean_directory_contents ((clean_directory_contents n).2)).1.errors = 0 := by
  cases n with
  | file sz ro rem => simp [clean_directory_contents] at h
  | other so =>
    cases so with
    | false => rfl
    | true => simp [clean_directory_contents] at h
  | dir l cs =>
    cases l with
    | false => simp [clean_directory_contents] at h
    | true =>
      rcases hc : cleanItems cs with ⟨s, cs'⟩
      have hs : s.errors = 0 := by
        simpa [clean_directory_contents, hc] using h
      have hben : ∀ m ∈ cs', benign m = true := by
        have := cleanItems_residue_benign cs (by rw [hc]; exact hs)
        rw [hc] at this
        exact this
      have h2 : (clean_directory_contents (Node.dir true cs)).2 =
          Node.dir true cs' := by
        simp [clean_directory_contents, hc]
      rw [h2]
      rcases hc2 : cleanItems cs' with ⟨s2, cs2'⟩
      have : s2.errors = 0 := by
        have := cleanItems_benign_errors cs' hben
        rw [hc2] at this
        exact this
      simpa [clean_directory_contents, hc2] using this

theorem cleanPath_errors_idem (p : Option Node)
    (h : (cleanPath p).1.errors = 0) :
    (cleanPath ((cleanPath p).2)).1.errors = 0 := by
  cases p with
  | none => rfl
  | some n =>
    cases hex : nodeExists n with
    | false => simp [cleanPath, hex]
    | true =>
      rcases hc : clean_directory_contents n with ⟨s, n'⟩
      have hs : s.errors = 0 := by
        simpa [cleanPath, hex, hc] using h
      have hex' : nodeExists n' = true := by
        have := nodeExists_clean_directory_contents n
        rw [hc] at this
        rw [this]
        exact hex
      have hidem := clean_directory_contents_errors_idem n (by rw [hc]; exact hs)
      rw [hc] at hidem
      simp only [cleanPath, hex, hc, hex', if_true]
      rcases hc2 : clean_directory_contents n' with ⟨s2, n2⟩
      rw [hc2] at hidem
      simpa using hidem

theorem cleanCategory_errors_idem (ps : List (Option Node))
    (h : (cleanCategory ps).1.errors = 0) :
    (cleanCategory ((cleanCategory ps).2)).1.errors = 0 := by
  induction ps with
  | nil => rfl
  | cons p rest ih =>
    rcases h1 : cleanPath p with ⟨s, p'⟩
    rcases h2 : cleanCategory rest with ⟨s', rest'⟩
    have hcons : cleanCategory (p :: rest) = (addStats s s', p' :: rest') := by
      simp [cleanCategory, h1, h2]
    rw [hcons] at h
    simp only [addStats] at h
    have hz1 : s.errors = 0 := by omega
    have hz2 : s'.errors = 0 := by omega
    have hp := cleanPath_errors_idem p (by rw [h1]; exact hz1)
    rw [h1] at hp
    have hr := ih (by rw [h2]; exact hz2)
    rw [h2] at hr
    rw [hcons]
    show (cleanCategory (p' :: rest')).1.errors = 0
    rcases h3 : cleanPath p' with ⟨t, p''⟩
    rcases h4 : cleanCategory rest' with ⟨t', rest''⟩
    have hcons2 : cleanCategory (p' :: rest') = (addStats t t', p'' :: rest'') := by
      simp [cleanCategory, h3, h4]
    rw [hcons2]
    rw [h3] at hp
    rw [h4] at hr
    simp only [addStats]
    simp only at hp hr
    omega

theorem generate_errors_to_categories (cat : Catalog)
    (maint : List (String × Bool))
    (h : ∀ e ∈ (generate cat maint).1, evErrors e = 0) :
    ∀ c ∈ cat, (cleanCategory c.2).1.errors = 0 := by
  intro c hc
  have hm := generateCats_event_mem cat 0 0 c hc
  have hmem : Event.clean ⟨c.1, (cleanCategory c.2).1.freed,
      (cleanCategory c.2).1.items, (cleanCategory c.2).1.errors⟩ ∈
      (generate cat maint).1 := by
    rcases hg : generateCats cat 0 0 with ⟨evs, cat', tf, te⟩
    rw [hg] at hm
    simp only [generate, hg]
    exact List.mem_append_left _ (List.mem_append_left _ hm)
  exact h _ hmem

theorem generate_categories_to_errors (cat : Catalog)
    (maint : List (String × Bool))
    (h : ∀ c ∈ cat, (cleanCategory c.2).1.errors = 0) :
    ∀ e ∈ (generate cat maint).1, evErrors e = 0 := by
  intro e he
  rcases hg : generateCats cat 0 0 with ⟨evs, cat', tf, te⟩
  have hshape : (generate cat maint).1 =
      evs ++ maintEvents maint ++ [Event.done ⟨tf, te⟩] := by
    simp only [generate, hg]
  have hevszero : ∀ e ∈ evs, evErrors e = 0 := by
    intro e' he'
    obtain ⟨c, hc, rfl⟩ := generateCats_event_shape cat 0 0 e' (by rw [hg]; exact he')
    exact h c hc
  rw [hshape] at he
  rcases List.mem_append.mp he with he' | hlast
  · rcases List.mem_append.mp he' with hev | hmnt
    · exact hevszero e hev
    · exact ((maintEvents_fields maint e hmnt).2).2.2
  · have hte : te = 0 := by
      have htot := (generateCats_totals cat 0 0).2
      rw [hg] at htot
      simp only [Nat.zero_add] at htot
      rw [htot]
      exact List.sum_eq_zero (by
        intro x hx
        obtain ⟨e', he', rfl⟩ := List.mem_map.mp hx
        exact hevszero e' he')
    rw [List.mem_singleton.mp hlast, hte]
    rfl

end IdempotenceLemmas

/-- C7 counterexample: the claim fails as stated.  Catalog
`{"Junk": [d]}` where `d` contains a single subdirectory that cannot be
opened: the first pass reports errors = 0 on every event (the locked
subdirectory's failed removal is reported as success), yet the
immediately repeated pass again reports items = 1 — not items = 0 —
because the subdirectory is in fact still there. -/
theorem clean_idempotence_counterexample :
    (∀ e ∈ (generate [("Junk", [some (Node.dir true [Node.dir false []])])] []).1,
      evErrors e = 0) ∧
    ¬ (∀ e ∈ (generate
        ((generate [("Junk", [some (Node.dir true [Node.dir false []])])] []).2)
        []).1,
      evFreed e = 0 ∧ evItems e = 0 ∧ evErrors e = 0) := by
  constructor
  · decide
  · decide

/-- C7 amended: if a clean pass completes with errors = 0 on every
emitted event, an immediately repeated clean pass over the resulting
state again reports errors = 0 on every event — but its freed and items
counts need not be zero, since a directory whose contents could not be
fully removed is still counted as a successfully removed item on every
pass. -/
theorem clean_second_pass_error_free (cat : Catalog)
    (maint maint2 : List (String × Bool))
    (h : ∀ e ∈ (generate cat maint).1, evErrors e = 0) :
    ∀ e ∈ (generate ((generate cat maint).2) maint2).1, evErrors e = 0 := by
  have hc := generate_errors_to_categories cat maint h
  have hcat' : (generate cat maint).2 =
      cat.map (fun c => (c.1, (cleanCategory c.2).2)) := by
    rcases hg : generateCats cat 0 0 with ⟨evs, cat', tf, te⟩
    have := generateCats_catalog cat 0 0
    rw [hg] at this
    simp only [generate, hg]
    exact this
  apply generate_categories_to_errors
  intro c' hc'
  rw [hcat'] at hc'
  obtain ⟨c, hcmem, rfl⟩ := List.mem_map.mp hc'
  exact cleanCategory_errors_idem c.2 (hc c hcmem)

/-- Witness for the amended C7 theorem at a concrete catalog. -/
theorem clean_second_pass_error_free_witness :
    (∀ e ∈ (generate [("Temp", [some (Node.dir true [Node.file 10 false true])])] []).1,
      evErrors e = 0) ∧
    (∀ e ∈ (generate
        ((generate [("Temp", [some (Node.dir true [Node.file 10 false true])])] []).2)
        []).1,
      evErrors e = 0) :=
  ⟨by decide,
    clean_second_pass_error_free
      [("Temp", [some (Node.dir true [Node.file 10 false true])])] [] []
      (by decide)⟩

end CleanSweep
